import Mathlib

/-!
# Verification of the conductor/kira audio engine core

Shallow embedding of the repository's audio-engine core, and proofs about it.

Conventions used throughout this development:

* Rust `f32`/`f64` values are modelled as `ℚ`.  Every concrete input used in a
  counterexample or witness below involves only small dyadic rationals for
  which the IEEE 754 computations performed by the source are exact, so the
  rational model is faithful at those points.  Where a claim is about the
  *shape and evaluation order* of a floating-point computation (claim C6), the
  computation is additionally modelled over an abstract operation structure
  (`FrameOps`), so the result holds for any interpretation of the arithmetic,
  the IEEE 754 `f32` interpretation included.
* Rust code that can panic (`.unwrap()`, explicit `panic!`-style branches) is
  modelled in the `Option` monad: `none` is a panic, `some` a normal return.
* `IndexMap` is modelled as an insertion-ordered association list
  (`List (ℕ × α)` with `ℕ` ids); `IndexMap::remove` is `swap_remove`
  (indexmap 1.x), modelled faithfully by `alSwapRemove`.
* The SPSC ring buffers are modelled as lists with a capacity: the command
  ring contents are a `List Command` (the audio side only pops, so draining
  the ring is a fold over its current contents), the event ring is a list
  plus capacity where a push on a full ring drops the event.
-/

set_option autoImplicit false

namespace Kira

/-- A stereo sample. Transcribed from the repository's frame/stereo-sample
type (spec §3 `Frame {left, right}`; the conductor crate calls it
`StereoSample`, the kira crate `Frame`). -/
structure Frame where
  left : ℚ
  right : ℚ
  deriving DecidableEq, Repr

namespace Frame

/-- `Frame::from_mono` / `StereoSample::from_mono`. -/
def fromMono (v : ℚ) : Frame := ⟨v, v⟩

instance : Add Frame := ⟨fun a b => ⟨a.left + b.left, a.right + b.right⟩⟩

instance : Sub Frame := ⟨fun a b => ⟨a.left - b.left, a.right - b.right⟩⟩

/-- `Frame * f32` (frame scaled by a scalar), as used by the interpolator and
the mix loop. -/
instance : HMul Frame ℚ Frame := ⟨fun a s => ⟨a.left * s, a.right * s⟩⟩

@[simp] theorem add_def (a b : Frame) : a + b = ⟨a.left + b.left, a.right + b.right⟩ := rfl

@[simp] theorem sub_def (a b : Frame) : a - b = ⟨a.left - b.left, a.right - b.right⟩ := rfl

@[simp] theorem hmul_def (a : Frame) (s : ℚ) : a * s = ⟨a.left * s, a.right * s⟩ := rfl

@[simp] theorem fromMono_def (v : ℚ) : fromMono v = ⟨v, v⟩ := rfl

end Frame

/-- Rust `f64 % 1.0`: remainder with the sign of the dividend, i.e.
`q - trunc q`.  For `q ≥ 0` this is the fractional part `q - ⌊q⌋`. -/
def remOne (q : ℚ) : ℚ := q - (if q < 0 then -(⌊-q⌋ : ℚ) else (⌊q⌋ : ℚ))

/-- Rust `f64 as usize`: truncate toward zero, saturating at `0` below and at
`usize::MAX = 2^64 - 1` above (Rust 1.45+ saturating float casts). -/
def ratToUsize (q : ℚ) : ℕ := if q < 0 then 0 else min ⌊q⌋.toNat (2 ^ 64 - 1)

/-- A loaded in-memory sound: `Sound` from `kira/src/sound/mod.rs` (the
conductor crate's sound type is its direct predecessor; the backend's
`get_sample_at_position` is this file's `get_frame_at_position`).
The `settings` payload (default track, semantic duration, loop start,
cooldown) is irrelevant to every claim below and is omitted;
`duration` is the value computed once in `Sound::new`. -/
structure Sound where
  sampleRate : ℕ
  samples : List Frame
  deriving DecidableEq, Repr

namespace Sound

/-- `Sound::new` computes `duration = samples.len() as f64 / sample_rate as f64`
and `Sound::duration` returns it. -/
def duration (s : Sound) : ℚ := (s.samples.length : ℚ) / (s.sampleRate : ℚ)

/-- Transcription of `Sound::get_frame_at_position`
(`kira/src/sound/mod.rs:251-280`):

```rust
let sample_position = self.sample_rate as f64 * position;
let x = (sample_position % 1.0) as f32;
let current_sample_index = sample_position as usize;
let y0 = if current_sample_index == 0 { ZERO } else { samples.get(i - 1).unwrap_or(ZERO) };
let y1 = samples.get(i).unwrap_or(ZERO);
let y2 = samples.get(i + 1).unwrap_or(ZERO);
let y3 = samples.get(i + 2).unwrap_or(ZERO);
let c0 = y1;
let c1 = (y2 - y0) * 0.5;
let c2 = y0 - y1 * 2.5 + y2 * 2.0 - y3 * 0.5;
let c3 = (y3 - y0) * 0.5 + (y1 - y2) * 1.5;
((c3 * x + c2) * x + c1) * x + c0
```
-/
def getFrameAtPosition (s : Sound) (position : ℚ) : Frame :=
  let samplePosition : ℚ := (s.sampleRate : ℚ) * position
  let x : ℚ := remOne samplePosition
  let currentSampleIndex : ℕ := ratToUsize samplePosition
  let y0 : Frame :=
    if currentSampleIndex = 0 then Frame.fromMono 0
    else (s.samples.get? (currentSampleIndex - 1)).getD (Frame.fromMono 0)
  let y1 : Frame := (s.samples.get? currentSampleIndex).getD (Frame.fromMono 0)
  let y2 : Frame := (s.samples.get? (currentSampleIndex + 1)).getD (Frame.fromMono 0)
  let y3 : Frame := (s.samples.get? (currentSampleIndex + 2)).getD (Frame.fromMono 0)
  let c0 := y1
  let c1 := (y2 - y0) * (1 / 2 : ℚ)
  let c2 := y0 - y1 * (5 / 2 : ℚ) + y2 * (2 : ℚ) - y3 * (1 / 2 : ℚ)
  let c3 := (y3 - y0) * (1 / 2 : ℚ) + (y1 - y2) * (3 / 2 : ℚ)
  ((c3 * x + c2) * x + c1) * x + c0

end Sound

/-- The value `get_frame_at_position` actually produces at a negative
position: the saturating `as usize` cast sends every negative sample position
to index `0`, so the code interpolates with `y0 = ZERO` and `y1, y2, y3` the
first three frames of the buffer, at the (negative) remainder `x` — in
general a nonzero frame. -/
def Sound.frameAtNegativePosition (s : Sound) (position : ℚ) : Frame :=
  let x : ℚ := remOne ((s.sampleRate : ℚ) * position)
  let y0 : Frame := Frame.fromMono 0
  let y1 : Frame := (s.samples.get? 0).getD (Frame.fromMono 0)
  let y2 : Frame := (s.samples.get? 1).getD (Frame.fromMono 0)
  let y3 : Frame := (s.samples.get? 2).getD (Frame.fromMono 0)
  let c0 := y1
  let c1 := (y2 - y0) * (1 / 2 : ℚ)
  let c2 := y0 - y1 * (5 / 2 : ℚ) + y2 * (2 : ℚ) - y3 * (1 / 2 : ℚ)
  let c3 := (y3 - y0) * (1 / 2 : ℚ) + (y1 - y2) * (3 / 2 : ℚ)
  ((c3 * x + c2) * x + c1) * x + c0

theorem ratToUsize_eq_zero_of_nonpos {q : ℚ} (h : q ≤ 0) : ratToUsize q = 0 := by
  unfold ratToUsize
  rcases lt_or_eq_of_le h with h' | h'
  · simp [h']
  · subst h'
    norm_num

theorem cubic_of_zero_frames (x : ℚ) :
    (let y : Frame := Frame.fromMono 0
     ((((y - y) * (1 / 2 : ℚ) + (y - y) * (3 / 2 : ℚ)) * x +
         (y - y * (5 / 2 : ℚ) + y * (2 : ℚ) - y * (1 / 2 : ℚ))) * x +
        (y - y) * (1 / 2 : ℚ)) * x + y) = Frame.fromMono 0 := by
  simp only [Frame.fromMono, Frame.add_def, Frame.sub_def, Frame.hmul_def, Frame.mk.injEq]
  constructor <;> ring

/-- C2: corrected.  The trailing half of the claim holds: whenever the sample
index derived from `t` is far enough past the end of the buffer that all four
interpolation neighbors are out of range (`len + 1 ≤ index`),
`get_frame_at_position` returns the zero frame.  The `t < 0` half of the
claim is false (see `C2_counterexample_negative_position`): for `t < 0` the
`as usize` cast saturates to sample index `0`, and the function returns the
cubic interpolation of `ZERO` and the first three frames of the buffer at a
negative fractional `x`, which is in general nonzero. -/
theorem C2_frame_at_position_out_of_range (s : Sound) (t : ℚ) :
    (s.samples.length + 1 ≤ ratToUsize ((s.sampleRate : ℚ) * t) →
      s.getFrameAtPosition t = Frame.fromMono 0) ∧
    (t < 0 → s.getFrameAtPosition t = s.frameAtNegativePosition t) := by
  constructor
  · intro h
    unfold Sound.getFrameAtPosition
    have hne : ratToUsize ((s.sampleRate : ℚ) * t) ≠ 0 := by omega
    have h0 : s.samples.get? (ratToUsize ((s.sampleRate : ℚ) * t) - 1) = none := by
      rw [List.get?_eq_none]
      omega
    have h1 : s.samples.get? (ratToUsize ((s.sampleRate : ℚ) * t)) = none := by
      rw [List.get?_eq_none]
      omega
    have h2 : s.samples.get? (ratToUsize ((s.sampleRate : ℚ) * t) + 1) = none := by
      rw [List.get?_eq_none]
      omega
    have h3 : s.samples.get? (ratToUsize ((s.sampleRate : ℚ) * t) + 2) = none := by
      rw [List.get?_eq_none]
      omega
    simp only [hne, if_false, h0, h1, h2, h3, Option.getD_none]
    exact cubic_of_zero_frames (remOne ((s.sampleRate : ℚ) * t))
  · intro h
    have hsp : (s.sampleRate : ℚ) * t ≤ 0 :=
      mul_nonpos_of_nonneg_of_nonpos (by positivity) h.le
    simp only [Sound.getFrameAtPosition, Sound.frameAtNegativePosition,
      ratToUsize_eq_zero_of_nonpos hsp, if_pos rfl, Nat.zero_add, if_true, eq_self_iff_true]

/-- C2 counterexample: the claim asserts `t < 0` always yields the zero
frame; at `t = -1/2` on a 1 Hz sound whose first frame is `(1, 1)`, the code
returns `(3/16, 3/16)`.  (All the `f32` operations involved are exact on
these dyadic rationals, so the rational model agrees bit-for-bit with the
source here.) -/
theorem C2_counterexample_negative_position :
    (-(1 / 2) : ℚ) < 0 ∧
    (Sound.mk 1 [Frame.fromMono 1, Frame.fromMono 0, Frame.fromMono 0]).getFrameAtPosition
        (-(1 / 2)) ≠ Frame.fromMono 0 := by
  constructor
  · norm_num
  · have h : (Sound.mk 1 [Frame.fromMono 1, Frame.fromMono 0, Frame.fromMono 0]).getFrameAtPosition
        (-(1 / 2)) = Frame.fromMono (3 / 16) := by
      simp only [Sound.getFrameAtPosition, remOne, ratToUsize, Frame.fromMono]
      norm_num
    rw [h]
    simp only [Frame.fromMono, Frame.mk.injEq]
    norm_num

/-- Witness for `C2_frame_at_position_out_of_range` at concrete inputs. -/
theorem C2_witness :
    (Sound.mk 1 [Frame.fromMono 1, Frame.fromMono 0, Frame.fromMono 0]).getFrameAtPosition 5 =
        Frame.fromMono 0 ∧
    (Sound.mk 1 [Frame.fromMono 1, Frame.fromMono 0, Frame.fromMono 0]).getFrameAtPosition
        (-(1 / 2)) =
      (Sound.mk 1 [Frame.fromMono 1, Frame.fromMono 0, Frame.fromMono 0]).frameAtNegativePosition
        (-(1 / 2)) := by
  refine ⟨(C2_frame_at_position_out_of_range _ 5).1 ?_, (C2_frame_at_position_out_of_range _ _).2 (by norm_num)⟩
  show 3 + 1 ≤ ratToUsize ((1 : ℕ) * 5 : ℚ)
  unfold ratToUsize
  norm_num

/-! ## Abstract interpolation arithmetic (claim C6)

The claim demands bit-for-bit agreement "to the precision of IEEE 754 f32
arithmetic in the stated evaluation order".  We therefore model the frame
arithmetic abstractly: `FrameOps` supplies uninterpreted `add`, `sub`, and
frame-by-scalar `smul` operations and the four scalar constants appearing in
the source.  Proving the code-side and spec-side computations equal for
*every* interpretation of these operations shows they perform the same
operations in the same order, hence agree bit-for-bit under the IEEE 754
`f32` interpretation in particular. -/

/-- Uninterpreted frame arithmetic: `F` is the frame type, `S` the scalar
type; the four scalar fields are the literals `0.5`, `2.5`, `2.0`, `1.5`
appearing in the source. -/
structure FrameOps (F S : Type) where
  add : F → F → F
  sub : F → F → F
  smul : F → S → F
  zero : F
  half : S
  fiveHalves : S
  two : S
  threeHalves : S

/-- The cubic computed by `get_frame_at_position`
(`kira/src/sound/mod.rs:275-279`), transcribed operation by operation over
abstract frame arithmetic. -/
def interpolateFromCode {F S : Type} (o : FrameOps F S) (y0 y1 y2 y3 : F) (x : S) : F :=
  let c0 := y1
  let c1 := o.smul (o.sub y2 y0) o.half
  let c2 := o.sub (o.add (o.sub y0 (o.smul y1 o.fiveHalves)) (o.smul y2 o.two)) (o.smul y3 o.half)
  let c3 := o.add (o.smul (o.sub y3 y0) o.half) (o.smul (o.sub y1 y2) o.threeHalves)
  o.add (o.smul (o.add (o.smul (o.add (o.smul c3 x) c2) x) c1) x) c0

/-- The 4-point cubic as the spec words it (§4.1):
`c0 = y1`, `c1 = (y2 - y0) * 0.5`, `c2 = y0 - y1*2.5 + y2*2.0 - y3*0.5`,
`c3 = (y3 - y0)*0.5 + (y1 - y2)*1.5`, `result = ((c3*x + c2)*x + c1)*x + c0`,
left-associated exactly as written.  This definition follows the spec's
words; claim C6 compares it with the transcription from the source. -/
def cubicFromSpec {F S : Type} (o : FrameOps F S) (y0 y1 y2 y3 : F) (x : S) : F :=
  let c0 := y1
  let c1 := o.smul (o.sub y2 y0) o.half
  let c2 := o.sub (o.add (o.sub y0 (o.smul y1 o.fiveHalves)) (o.smul y2 o.two)) (o.smul y3 o.half)
  let c3 := o.add (o.smul (o.sub y3 y0) o.half) (o.smul (o.sub y1 y2) o.threeHalves)
  o.add (o.smul (o.add (o.smul (o.add (o.smul c3 x) c2) x) c1) x) c0

/-- Neighbor selection as the source performs it
(`kira/src/sound/mod.rs:255-274`): `usize` index arithmetic with an explicit
guard against underflow at index `0`. -/
def neighborsFromCode {F S : Type} (o : FrameOps F S) (samples : List F) (i : ℕ) :
    F × F × F × F :=
  ( if i = 0 then o.zero else (samples.get? (i - 1)).getD o.zero,
    (samples.get? i).getD o.zero,
    (samples.get? (i + 1)).getD o.zero,
    (samples.get? (i + 2)).getD o.zero )

/-- Neighbor selection as the claim words it: the frame at signed offset `k`
from the start of the buffer, the zero frame when out of range.  This
definition follows the spec's words. -/
def neighborFromSpec {F S : Type} (o : FrameOps F S) (samples : List F) (k : ℤ) : F :=
  if k < 0 then o.zero else (samples.get? k.toNat).getD o.zero

/-- The rational interpretation of the frame arithmetic, used by the concrete
model `Sound.getFrameAtPosition`. -/
def ratFrameOps : FrameOps Frame ℚ where
  add := fun a b => a + b
  sub := fun a b => a - b
  smul := fun a s => a * s
  zero := Frame.fromMono 0
  half := 1 / 2
  fiveHalves := 5 / 2
  two := 2
  threeHalves := 3 / 2

theorem ratToUsize_of_nonneg_lt {q : ℚ} (h0 : 0 ≤ q) (h1 : q < 2 ^ 64) :
    ratToUsize q = ⌊q⌋.toNat := by
  unfold ratToUsize
  rw [if_neg (not_lt.mpr h0)]
  refine min_eq_left ?_
  have hfl : ⌊q⌋ < 2 ^ 64 := by
    have := Int.floor_le q
    have : (⌊q⌋ : ℚ) < 2 ^ 64 := lt_of_le_of_lt (Int.floor_le q) h1
    exact_mod_cast this
  omega

theorem remOne_of_nonneg {q : ℚ} (h0 : 0 ≤ q) : remOne q = q - ⌊q⌋ := by
  unfold remOne
  rw [if_neg (not_lt.mpr h0)]

/-- C6: confirmed.  (1) Over *any* interpretation of the frame arithmetic —
hence in particular over IEEE 754 `f32` — the computation transcribed from
the source (zero-guarded `usize` neighbor selection followed by the
source's coefficient computations and Horner evaluation) is exactly the
spec's computation: the stated cubic with the four consecutive neighbors
around the integer sample index, zero when out of range.
(2) The concrete model `Sound.getFrameAtPosition` at an in-range position
`t ≥ 0` is exactly this computation with `x` the fractional part of
`sample_rate * t` and the neighbors taken around `⌊sample_rate * t⌋`. -/
theorem C6_interpolation_refinement :
    (∀ (F S : Type) (o : FrameOps F S) (samples : List F) (i : ℕ) (x : S),
      (let n := neighborsFromCode o samples i
       interpolateFromCode o n.1 n.2.1 n.2.2.1 n.2.2.2 x) =
      cubicFromSpec o (neighborFromSpec o samples ((i : ℤ) - 1))
        (neighborFromSpec o samples (i : ℤ))
        (neighborFromSpec o samples ((i : ℤ) + 1))
        (neighborFromSpec o samples ((i : ℤ) + 2)) x) ∧
    (∀ (s : Sound) (t : ℚ), 0 ≤ t → (s.sampleRate : ℚ) * t < 2 ^ 64 →
      s.getFrameAtPosition t =
        cubicFromSpec ratFrameOps
          (neighborFromSpec ratFrameOps s.samples (⌊(s.sampleRate : ℚ) * t⌋ - 1))
          (neighborFromSpec ratFrameOps s.samples ⌊(s.sampleRate : ℚ) * t⌋)
          (neighborFromSpec ratFrameOps s.samples (⌊(s.sampleRate : ℚ) * t⌋ + 1))
          (neighborFromSpec ratFrameOps s.samples (⌊(s.sampleRate : ℚ) * t⌋ + 2))
          ((s.sampleRate : ℚ) * t - ⌊(s.sampleRate : ℚ) * t⌋)) := by
  have habstract : ∀ (F S : Type) (o : FrameOps F S) (samples : List F) (i : ℕ) (x : S),
      (let n := neighborsFromCode o samples i
       interpolateFromCode o n.1 n.2.1 n.2.2.1 n.2.2.2 x) =
      cubicFromSpec o (neighborFromSpec o samples ((i : ℤ) - 1))
        (neighborFromSpec o samples (i : ℤ))
        (neighborFromSpec o samples ((i : ℤ) + 1))
        (neighborFromSpec o samples ((i : ℤ) + 2)) x := by
    intro F S o samples i x
    have hy0 : (if i = 0 then o.zero else (samples.get? (i - 1)).getD o.zero) =
        neighborFromSpec o samples ((i : ℤ) - 1) := by
      cases i with
      | zero => simp [neighborFromSpec]
      | succ n =>
        have hlt : ¬(((n + 1 : ℕ) : ℤ) - 1 < 0) := by omega
        have htn : (((n + 1 : ℕ) : ℤ) - 1).toNat = n := by omega
        rw [neighborFromSpec, if_neg hlt, htn, if_neg (Nat.succ_ne_zero n),
          Nat.add_sub_cancel]
    have hy1 : (samples.get? i).getD o.zero = neighborFromSpec o samples (i : ℤ) := by
      have hlt : ¬((i : ℤ) < 0) := by omega
      have htn : ((i : ℤ)).toNat = i := by omega
      rw [neighborFromSpec, if_neg hlt, htn]
    have hy2 : (samples.get? (i + 1)).getD o.zero =
        neighborFromSpec o samples ((i : ℤ) + 1) := by
      have hlt : ¬((i : ℤ) + 1 < 0) := by omega
      have htn : ((i : ℤ) + 1).toNat = i + 1 := by omega
      rw [neighborFromSpec, if_neg hlt, htn]
    have hy3 : (samples.get? (i + 2)).getD o.zero =
        neighborFromSpec o samples ((i : ℤ) + 2) := by
      have hlt : ¬((i : ℤ) + 2 < 0) := by omega
      have htn : ((i : ℤ) + 2).toNat = i + 2 := by omega
      rw [neighborFromSpec, if_neg hlt, htn]
    simp only [neighborsFromCode, interpolateFromCode, cubicFromSpec, hy0, hy1, hy2, hy3]
  refine ⟨habstract, ?_⟩
  intro s t ht hlt
  have hsp : (0 : ℚ) ≤ (s.sampleRate : ℚ) * t := mul_nonneg (by positivity) ht
  have hidx : ratToUsize ((s.sampleRate : ℚ) * t) = ⌊(s.sampleRate : ℚ) * t⌋.toNat :=
    ratToUsize_of_nonneg_lt hsp hlt
  have hcast : ((⌊(s.sampleRate : ℚ) * t⌋.toNat : ℤ)) = ⌊(s.sampleRate : ℚ) * t⌋ :=
    Int.toNat_of_nonneg (Int.floor_nonneg.mpr hsp)
  have hcode : s.getFrameAtPosition t =
      (let n := neighborsFromCode ratFrameOps s.samples ⌊(s.sampleRate : ℚ) * t⌋.toNat
       interpolateFromCode ratFrameOps n.1 n.2.1 n.2.2.1 n.2.2.2
         ((s.sampleRate : ℚ) * t - ⌊(s.sampleRate : ℚ) * t⌋)) := by
    simp only [Sound.getFrameAtPosition, neighborsFromCode, interpolateFromCode,
      remOne_of_nonneg hsp, hidx, ratFrameOps]
  rw [hcode, habstract Frame ℚ ratFrameOps s.samples ⌊(s.sampleRate : ℚ) * t⌋.toNat
    ((s.sampleRate : ℚ) * t - ⌊(s.sampleRate : ℚ) * t⌋), hcast]

/-- Witness for `C6_interpolation_refinement` at a concrete sound and
position. -/
theorem C6_witness :
    (Sound.mk 1 [Frame.fromMono 1, Frame.fromMono 0]).getFrameAtPosition (1 / 2) =
      cubicFromSpec ratFrameOps
        (neighborFromSpec ratFrameOps [Frame.fromMono 1, Frame.fromMono 0]
          (⌊((1 : ℕ) : ℚ) * (1 / 2)⌋ - 1))
        (neighborFromSpec ratFrameOps [Frame.fromMono 1, Frame.fromMono 0]
          ⌊((1 : ℕ) : ℚ) * (1 / 2)⌋)
        (neighborFromSpec ratFrameOps [Frame.fromMono 1, Frame.fromMono 0]
          (⌊((1 : ℕ) : ℚ) * (1 / 2)⌋ + 1))
        (neighborFromSpec ratFrameOps [Frame.fromMono 1, Frame.fromMono 0]
          (⌊((1 : ℕ) : ℚ) * (1 / 2)⌋ + 2))
        (((1 : ℕ) : ℚ) * (1 / 2) - ⌊((1 : ℕ) : ℚ) * (1 / 2)⌋) :=
  C6_interpolation_refinement.2 (Sound.mk 1 [Frame.fromMono 1, Frame.fromMono 0]) (1 / 2)
    (by norm_num) (by norm_num)

/-! ## `Sound::from_file` extension dispatch (claim C8) -/

/-- The error type of the sound loader.  The enum itself lives in a module
that is not under `src/`; these variants are modelled from their uses in
`kira/src/sound/mod.rs` and the spec's loader contract (§6). -/
inductive AudioError where
  | unsupportedAudioFileFormat
  | unsupportedChannelConfiguration
  | variableMp3SampleRate
  | unknownMp3SampleRate
  deriving DecidableEq, Repr

/-- The four format decoders `from_file` can dispatch to. -/
inductive AudioFileFormat where
  | mp3
  | ogg
  | flac
  | wav
  deriving DecidableEq, Repr

/-- Transcription of the dispatch decision of `Sound::from_file`
(`kira/src/sound/mod.rs:210-226`).  The argument is
`path.extension().map(|e| e.to_str())`: the outer `Option` is whether the
path has an extension, the inner whether it is valid UTF-8.  Dispatching to
`Self::from_mp3_file` (etc.) is modelled as returning the chosen format —
the decoding itself reads the filesystem and is outside the model.

```rust
if let Some(extension) = path.as_ref().extension() {
    if let Some(extension_str) = extension.to_str() {
        match extension_str {
            "mp3" => return Self::from_mp3_file(path, settings),
            "ogg" => return Self::from_ogg_file(path, settings),
            "flac" => return Self::from_flac_file(path, settings),
            "wav" => return Self::from_wav_file(path, settings),
            _ => {}
        }
    }
}
Err(AudioError::UnsupportedAudioFileFormat)
```
-/
def fromFileDispatch (extension : Option (Option String)) :
    Except AudioError AudioFileFormat :=
  match extension with
  | some (some s) =>
    if s = "mp3" then .ok .mp3
    else if s = "ogg" then .ok .ogg
    else if s = "flac" then .ok .flac
    else if s = "wav" then .ok .wav
    else .error .unsupportedAudioFileFormat
  | some none => .error .unsupportedAudioFileFormat
  | none => .error .unsupportedAudioFileFormat

/-- C8: confirmed.  Any extension other than `mp3`/`ogg`/`flac`/`wav`
(including a missing extension, and a non-UTF-8 one) is rejected with
`UnsupportedAudioFileFormat`; each of the four known extensions dispatches
to the matching decoder. -/
theorem C8_from_file_dispatch :
    (∀ s : String, s ≠ "mp3" → s ≠ "ogg" → s ≠ "flac" → s ≠ "wav" →
      fromFileDispatch (some (some s)) = .error .unsupportedAudioFileFormat) ∧
    fromFileDispatch none = .error .unsupportedAudioFileFormat ∧
    fromFileDispatch (some none) = .error .unsupportedAudioFileFormat ∧
    fromFileDispatch (some (some "mp3")) = .ok .mp3 ∧
    fromFileDispatch (some (some "ogg")) = .ok .ogg ∧
    fromFileDispatch (some (some "flac")) = .ok .flac ∧
    fromFileDispatch (some (some "wav")) = .ok .wav := by
  refine ⟨?_, rfl, rfl, rfl, rfl, rfl, rfl⟩
  intro s h1 h2 h3 h4
  simp [fromFileDispatch, h1, h2, h3, h4]

/-- Witness for `C8_from_file_dispatch` at a concrete unknown extension. -/
theorem C8_witness :
    fromFileDispatch (some (some "txt")) = .error .unsupportedAudioFileFormat :=
  C8_from_file_dispatch.1 "txt" (by decide) (by decide) (by decide) (by decide)

/-! ## `Parameters::remove_unused_parameters` (claim C9) -/

/-- State of `Parameters` (`kira/src/manager/resources/parameters.rs`) as
seen by `remove_unused_parameters`: the arena entries paired with their
removal mark (`parameter.shared().is_marked_for_removal()`), and the
unused-parameter ring (`ringbuf::Producer`) as its current contents plus its
capacity.  Parameter payloads are opaque to this function and are modelled
as `ℕ`. -/
structure Parameters where
  params : List (Bool × ℕ)
  producerQueue : List ℕ
  producerCap : ℕ
  deriving DecidableEq, Repr

/-- The `drain_filter` loop of `remove_unused_parameters`, with panics
modelled as `none`.  `kept` accumulates the entries the filter retains; on
the early `return` after a push fills the ring, the not-yet-visited entries
stay in the arena.  `Producer::push` fails exactly when the ring is full
(`cap ≤ len`), and `is_full` is `cap ≤ len`. -/
def removeUnusedGo (cap : ℕ) :
    List (Bool × ℕ) → List (Bool × ℕ) → List ℕ → Option (List (Bool × ℕ) × List ℕ)
  | [], kept, prod => some (kept, prod)
  | (marked, p) :: rest, kept, prod =>
    if marked then
      if cap ≤ prod.length then none
      else
        let prod' := prod ++ [p]
        if cap ≤ prod'.length then some (kept ++ rest, prod')
        else removeUnusedGo cap rest kept prod'
    else removeUnusedGo cap rest (kept ++ [(marked, p)]) prod

/-- Transcription of `Parameters::remove_unused_parameters`
(`kira/src/manager/resources/parameters.rs:32-47`): return immediately when
the producer is already full, otherwise drain marked parameters, pushing
each into the producer — `none` models the
`panic!("Unused parameter producer is full")` branch — and returning as soon
as a push fills the producer. -/
def removeUnusedParameters (s : Parameters) : Option Parameters :=
  if s.producerCap ≤ s.producerQueue.length then some s
  else
    (removeUnusedGo s.producerCap s.params [] s.producerQueue).map
      (fun r => { s with params := r.1, producerQueue := r.2 })

theorem removeUnusedGo_isSome (cap : ℕ) (l : List (Bool × ℕ)) :
    ∀ kept prod, prod.length < cap → (removeUnusedGo cap l kept prod).isSome = true := by
  induction l with
  | nil => intro kept prod _; rfl
  | cons hd rest ih =>
    intro kept prod hlt
    obtain ⟨marked, p⟩ := hd
    by_cases hm : marked
    · rw [removeUnusedGo, if_pos hm, if_neg (not_le.mpr hlt)]
      show (if cap ≤ (prod ++ [p]).length then some (kept ++ rest, prod ++ [p])
        else removeUnusedGo cap rest kept (prod ++ [p])).isSome = true
      by_cases hfull : cap ≤ (prod ++ [p]).length
      · rw [if_pos hfull]
        rfl
      · rw [if_neg hfull]
        exact ih kept (prod ++ [p]) (not_le.mp hfull)
    · rw [removeUnusedGo, if_neg hm]
      exact ih (kept ++ [(marked, p)]) prod hlt

/-- C9: confirmed.  The `panic!("Unused parameter producer is full")` branch
is unreachable: the function returns before the loop when the producer is
already full and returns as soon as a push fills it, so every push it
performs happens on a non-full producer and succeeds — the modelled function
never returns `none` (the panic). -/
theorem C9_remove_unused_parameters_never_panics (s : Parameters) :
    (removeUnusedParameters s).isSome = true := by
  unfold removeUnusedParameters
  by_cases hfull : s.producerCap ≤ s.producerQueue.length
  · simp [hfull]
  · rw [if_neg hfull]
    have h2 := removeUnusedGo_isSome s.producerCap s.params [] s.producerQueue (not_le.mp hfull)
    rcases hsome : removeUnusedGo s.producerCap s.params [] s.producerQueue with _ | r
    · rw [hsome] at h2
      exact absurd h2 (by simp)
    · simp [hsome]

/-! ## `StaticSound::process` (claim C10) -/

/-- Playback state of a `StaticSound` (`kira/src/sound/static_sound.rs`). -/
inductive PlaybackState where
  | playing
  | pausing
  | stopped
  deriving DecidableEq, Repr

/-- `ProcessResult`, defined in a kira sound module not under `src/`;
modelled from its single use in `static_sound.rs`
(`ProcessResult::Loaded(out)`). -/
inductive ProcessResult where
  | loaded (f : Frame)
  deriving DecidableEq, Repr

/-- `StaticSound` (`kira/src/sound/static_sound.rs`).  The generic sample
type `S: Into<Frame>` is modelled post-conversion as `Frame` (the conversion
is applied in `frame_at_index`; the buffer is immutable either way). -/
structure StaticSound where
  sampleRate : ℕ
  samples : List Frame
  state : PlaybackState
  position : ℚ
  deriving DecidableEq, Repr

namespace StaticSound

/-- `StaticSound::duration`: `samples.len() as f64 / sample_rate as f64`
(the source round-trips this through `Duration`, which stores whole
nanoseconds; the rational model keeps the exact value). -/
def duration (s : StaticSound) : ℚ := (s.samples.length : ℚ) / (s.sampleRate : ℚ)

/-- `StaticSound::frame_at_index`: out-of-range indices yield the zero
frame. -/
def frameAtIndex (s : StaticSound) (index : ℕ) : Frame :=
  (s.samples.get? index).getD (Frame.fromMono 0)

/-- `util::interpolate_frame` (its module is not under `src/`).  Modelled
from the spec: §4.1 gives its body as exactly the 4-point cubic that
`kira/src/sound/mod.rs:275-279` inlines, so we reuse the transcription of
that computation at the rational interpretation. -/
def interpolateFrame (y0 y1 y2 y3 : Frame) (x : ℚ) : Frame :=
  interpolateFromCode ratFrameOps y0 y1 y2 y3 x

/-- Transcription of `StaticSound::frame_at_position`
(`kira/src/sound/static_sound.rs:49-62`). -/
def frameAtPosition (s : StaticSound) (position : ℚ) : Frame :=
  let samplePosition : ℚ := (s.sampleRate : ℚ) * position
  let fraction : ℚ := remOne samplePosition
  let currentSampleIndex : ℕ := ratToUsize samplePosition
  let previous : Frame :=
    if currentSampleIndex = 0 then Frame.fromMono 0
    else s.frameAtIndex (currentSampleIndex - 1)
  let current := s.frameAtIndex currentSampleIndex
  let next1 := s.frameAtIndex (currentSampleIndex + 1)
  let next2 := s.frameAtIndex (currentSampleIndex + 2)
  interpolateFrame previous current next1 next2 fraction

/-- Transcription of `StaticSound::process`
(`kira/src/sound/static_sound.rs:74-81`):

```rust
let out = self.frame_at_position(self.position);
if self.position > self.duration().as_secs_f64() {
    self.state = PlaybackState::Stopped;
}
self.position += dt;
ProcessResult::Loaded(out)
```
-/
def process (s : StaticSound) (dt : ℚ) : ProcessResult × StaticSound :=
  let out := s.frameAtPosition s.position
  let state' := if s.duration < s.position then PlaybackState.stopped else s.state
  (ProcessResult.loaded out, { s with state := state', position := s.position + dt })

/-- `StaticSound::finished`: `self.state == PlaybackState::Stopped`. -/
def finished (s : StaticSound) : Bool := decide (s.state = PlaybackState.stopped)

end StaticSound

/-- C10: confirmed.  `process` returns `Loaded` of the frame at the entry
position; it advances the position by exactly `dt`; the exit state is
`Stopped` exactly when the entry position exceeds the duration or the state
was already `Stopped` (the frame is emitted either way); and `Stopped` is
never left, so `finished()` is monotone over successive calls. -/
theorem C10_static_sound_process (s : StaticSound) (dt : ℚ) :
    (s.process dt).1 = ProcessResult.loaded (s.frameAtPosition s.position) ∧
    (s.process dt).2.position = s.position + dt ∧
    ((s.process dt).2.state = PlaybackState.stopped ↔
      (s.duration < s.position ∨ s.state = PlaybackState.stopped)) ∧
    (s.finished = true → (s.process dt).2.finished = true) := by
  refine ⟨rfl, rfl, ?_, ?_⟩
  · unfold StaticSound.process
    by_cases h : s.duration < s.position
    · simp [h]
    · simp [h]
  · intro hf
    simp only [StaticSound.finished, decide_eq_true_eq] at hf ⊢
    unfold StaticSound.process
    by_cases h : s.duration < s.position
    · simp [h]
    · simp [h, hf]

/-- Witness for `C10_static_sound_process`: the monotonicity conjunct
applied at a concrete already-stopped sound. -/
theorem C10_witness :
    ((StaticSound.mk 1 [] PlaybackState.stopped 0).process 1).2.finished = true :=
  (C10_static_sound_process (StaticSound.mk 1 [] PlaybackState.stopped 0) 1).2.2.2 (by decide)

/-! ## Ordered maps and rings (conductor backend infrastructure)

`IndexMap<K, V>` is modelled as an insertion-ordered association list with
`ℕ` ids.  `insert` replaces in place when the key is present and appends
otherwise; `remove` is indexmap 1.x `swap_remove`: the found entry is
replaced by the last entry, which is then popped.  The SPSC event ring is a
list plus a capacity; a push on a full ring is dropped. -/

/-- `IndexMap::get`: first entry with the given key. -/
def alGet {α : Type} (k : ℕ) (l : List (ℕ × α)) : Option α :=
  (l.find? (fun p => p.1 == k)).map (fun p => p.2)

/-- Apply `f` to the entry with key `k` (the `if let Some(x) = map.get_mut(k)`
pattern); keys and order are unchanged, and an absent key leaves the list
untouched. -/
def alModify {α : Type} (k : ℕ) (f : α → α) (l : List (ℕ × α)) : List (ℕ × α) :=
  l.map (fun p => if p.1 = k then (p.1, f p.2) else p)

/-- `IndexMap::insert`: replace in place when present, append otherwise. -/
def alInsert {α : Type} (k : ℕ) (v : α) (l : List (ℕ × α)) : List (ℕ × α) :=
  if l.any (fun p => p.1 == k) then alModify k (fun _ => v) l else l ++ [(k, v)]

/-- `IndexMap::remove` = `swap_remove` (indexmap 1.x): overwrite the found
entry with the last entry and pop the last slot. -/
def alSwapRemove {α : Type} (k : ℕ) (l : List (ℕ × α)) : List (ℕ × α) :=
  match l.findIdx? (fun p => p.1 == k) with
  | none => l
  | some i =>
    match l.getLast? with
    | none => l
    | some last => (l.set i last).dropLast

/-- `Producer::push` on the bounded event ring: drop the element when the
ring is full. -/
def ringPush {α : Type} (cap : ℕ) (e : α) (q : List α) : List α :=
  if cap ≤ q.length then q else q ++ [e]

/-- Key uniqueness, an invariant of every `IndexMap`. -/
def NodupKeys {α : Type} (l : List (ℕ × α)) : Prop := (l.map Prod.fst).Nodup

/-! ## Spec-modelled playback components

The conductor crate's `Instance`, `Metronome`, `Sequence`, `Tween` and
`Command` modules are not under `src/`; the backend
(`conductor/src/manager/backend.rs`, which is under `src/`) drives them
through the interfaces below.  They are modelled from the spec (§3,
§4.5, §4.7–§4.9).  Every backend claim below is decided by the backend's own
control flow; these components enter only as black boxes. -/

/-- Modelled from the spec: tween curves (§3 `Tween`, §4.5).  The exponent
is kept as a natural number so the model stays exactly computable. -/
inductive Curve where
  | linear
  | easeIn (power : ℕ)
  | easeOut (power : ℕ)
  | easeInOut (power : ℕ)
  deriving DecidableEq, Repr

/-- Modelled from the spec: §3 `Tween {duration, curve}`. -/
structure Tween where
  duration : ℚ
  curve : Curve
  deriving DecidableEq, Repr

/-- Modelled from the spec: §4.5 eased progress for a clamped `p ∈ [0,1]`. -/
def Curve.ease (c : Curve) (p : ℚ) : ℚ :=
  match c with
  | .linear => p
  | .easeIn n => p ^ n
  | .easeOut n => 1 - (1 - p) ^ n
  | .easeInOut n => if p < 1 / 2 then (2 * p) ^ n / 2 else 1 - (2 * (1 - p)) ^ n / 2

/-- Modelled from the spec: §3 `TweenableF32`. -/
structure Tweenable where
  current : ℚ
  start : ℚ
  target : ℚ
  tween : Option Tween
  elapsed : ℚ
  deriving DecidableEq, Repr

namespace Tweenable

def new (v : ℚ) : Tweenable := ⟨v, v, v, none, 0⟩

/-- Modelled from the spec: start a tween toward `target`; an absent tween
jumps immediately (§4.7: "the transition is instantaneous"). -/
def tweenTo (tw : Tweenable) (target : ℚ) (t : Option Tween) : Tweenable :=
  match t with
  | none => { current := target, start := target, target := target, tween := none, elapsed := 0 }
  | some tn =>
    { current := tw.current, start := tw.current, target := target, tween := some tn, elapsed := 0 }

/-- Modelled from the spec: §4.5 — advance `elapsed`, clamp progress to
`[0,1]`, ease, interpolate; on completion the value pins to the target and
further updates are no-ops. -/
def update (tw : Tweenable) (dt : ℚ) : Tweenable :=
  match tw.tween with
  | none => tw
  | some t =>
    let elapsed := tw.elapsed + dt
    let p := min (max (elapsed / t.duration) 0) 1
    if 1 ≤ p then
      { current := tw.target, start := tw.start, target := tw.target, tween := none,
        elapsed := elapsed }
    else
      { current := tw.start + (tw.target - tw.start) * t.curve.ease p,
        start := tw.start, target := tw.target, tween := some t, elapsed := elapsed }

end Tweenable

/-- Modelled from the spec: §3 instance state set. -/
inductive InstanceState where
  | playing
  | pausing
  | paused
  | resuming
  | stopping
  | stopped
  deriving DecidableEq, Repr

/-- Modelled from the spec: the per-instance settings snapshot (§3). -/
structure InstanceSettings where
  volume : ℚ
  pitch : ℚ
  loopStart : Option ℚ
  deriving DecidableEq, Repr

def InstanceSettings.default : InstanceSettings := ⟨1, 1, none⟩

/-- Modelled from the spec: §3, §4.7.  `duration` is the sound duration
captured at creation (`Instance::new(sound_id, settings, sound.duration())`
in backend.rs:54). -/
structure Instance where
  soundId : ℕ
  duration : ℚ
  state : InstanceState
  position : ℚ
  volume : Tweenable
  pitch : Tweenable
  fade : Tweenable
  loopStart : Option ℚ
  deriving DecidableEq, Repr

/-- `a mod b` on rationals (`a - b * ⌊a / b⌋`), the wrap rule's modulus. -/
def ratMod (a b : ℚ) : ℚ := a - b * ⌊a / b⌋

namespace Instance

def new (soundId : ℕ) (settings : InstanceSettings) (duration : ℚ) : Instance :=
  { soundId := soundId, duration := duration, state := .playing, position := 0,
    volume := Tweenable.new settings.volume, pitch := Tweenable.new settings.pitch,
    fade := Tweenable.new 1, loopStart := settings.loopStart }

/-- Modelled from the spec: §4.7 `Playing → Pause(t) → Pausing`,
`fade.tween_to(0, t)`. -/
def pause (i : Instance) (fadeTween : Option Tween) : Instance :=
  { i with state := .pausing, fade := i.fade.tweenTo 0 fadeTween }

/-- Modelled from the spec: §4.7 `Paused → Resume(t) → Resuming`,
`fade.tween_to(1, t)`. -/
def resume (i : Instance) (fadeTween : Option Tween) : Instance :=
  { i with state := .resuming, fade := i.fade.tweenTo 1 fadeTween }

/-- Modelled from the spec: §4.7 `* → Stop(t) → Stopping`,
`fade.tween_to(0, t)`. -/
def stop (i : Instance) (fadeTween : Option Tween) : Instance :=
  { i with state := .stopping, fade := i.fade.tweenTo 0 fadeTween }

/-- Modelled from the spec: an instance is "playing" (mixed, and its
position advances) in the four non-suspended states of §4.7. -/
def playing (i : Instance) : Bool :=
  match i.state with
  | .playing | .resuming | .pausing | .stopping => true
  | .paused | .stopped => false

/-- `finished() = state == Stopped` (spec §4.7). -/
def finished (i : Instance) : Bool := decide (i.state = InstanceState.stopped)

/-- `effective_volume = volume.value * fade.value` (spec §4.7). -/
def effectiveVolume (i : Instance) : ℚ := i.volume.current * i.fade.current

/-- Modelled from the spec: §4.7 `update(dt)` — advance the three tweens,
apply the fade-threshold transitions of the state table, advance the
position by `dt * pitch` in playing states, then apply the end-of-sound
rule (transition to Stopping with zero fade, or wrap at the loop point). -/
def update (i : Instance) (dt : ℚ) : Instance :=
  let volume := i.volume.update dt
  let pitch := i.pitch.update dt
  let fade := i.fade.update dt
  let state :=
    match i.state with
    | .pausing => if fade.current = 0 then InstanceState.paused else .pausing
    | .resuming => if fade.current = 1 then InstanceState.playing else .resuming
    | .stopping => if fade.current = 0 then InstanceState.stopped else .stopping
    | s => s
  let i' : Instance := { i with volume := volume, pitch := pitch, fade := fade, state := state }
  if i'.playing then
    let position := i.position + dt * pitch.current
    if i.duration < position then
      match i.loopStart with
      | none => { i' with position := position, state := .stopping, fade := fade.tweenTo 0 none }
      | some l =>
        { i' with position := l + ratMod (position - i.duration) (i.duration - l) }
    else { i' with position := position }
  else i'

end Instance

/-- Modelled from the spec: §3, §4.8.  `tempo` is in beats per minute. -/
structure Metronome where
  tempo : ℚ
  intervalEventsToEmit : List ℚ
  ticking : Bool
  time : ℚ
  previousTime : ℚ
  deriving DecidableEq, Repr

namespace Metronome

/-- §4.8: `start()` sets `ticking := true`. -/
def start (m : Metronome) : Metronome := { m with ticking := true }

/-- §4.8: `pause()` clears `ticking` but preserves time. -/
def pause (m : Metronome) : Metronome := { m with ticking := false }

/-- §4.8: `stop()` clears `ticking` and resets both clocks. -/
def stop (m : Metronome) : Metronome :=
  { m with ticking := false, time := 0, previousTime := 0 }

/-- Modelled from the spec: the §4.8 crossing condition for interval `iv`
over the last tick (`floor(time/iv) > floor(previous_time/iv)`, positive
intervals only). -/
def crossed (m : Metronome) (iv : ℚ) : Bool :=
  decide (0 < iv) && decide (⌊m.previousTime / iv⌋ < ⌊m.time / iv⌋)

/-- Modelled from the spec: §4.8 `update(dt)` — when ticking, record the
previous time, advance musical time by `dt * beats_per_second`
(`tempo / 60`), and report every registered interval whose multiple was
crossed, in registration order. -/
def update (m : Metronome) (dt : ℚ) : Metronome × List ℚ :=
  if m.ticking then
    let m' := { m with previousTime := m.time, time := m.time + dt * (m.tempo / 60) }
    (m', m.intervalEventsToEmit.filter (fun iv => m'.crossed iv))
  else (m, [])

end Metronome

/-- Modelled from the spec: §3 sequence step variants.  Command-emitting
steps carry the payload of the backend command they emit; `playSound`
carries the controller-allocated instance id. -/
inductive Step where
  | wait (seconds : ℚ)
  | waitForInterval (interval : ℚ)
  | playSound (soundId instanceId : ℕ) (settings : InstanceSettings)
  | pauseInstance (instanceId : ℕ) (fade : Option Tween)
  | resumeInstance (instanceId : ℕ) (fade : Option Tween)
  | stopInstance (instanceId : ℕ) (fade : Option Tween)
  | startMetronome (metronomeId : ℕ)
  | pauseMetronome (metronomeId : ℕ)
  | stopMetronome (metronomeId : ℕ)
  | goTo (stepIndex : ℕ)
  | done
  deriving DecidableEq, Repr

/-- Modelled from the spec: §3 sequence state. -/
inductive SequenceState where
  | idle
  | running
  | finished
  deriving DecidableEq, Repr

/-- Modelled from the spec: §3 `Sequence`. -/
structure Sequence where
  metronomeId : ℕ
  steps : List Step
  cursor : ℕ
  state : SequenceState
  waitTimer : Option ℚ
  deriving DecidableEq, Repr

/-- The backend's command set.  The `Command` enum consumed by
`conductor/src/manager/backend.rs` is defined in a module that is not under
`src/`; its variants and payloads are modelled from the `match` in
`run_command` (backend.rs:49-86). -/
inductive Command where
  | playSound (soundId instanceId : ℕ) (settings : InstanceSettings)
  | pauseInstance (instanceId : ℕ) (fadeDuration : Option Tween)
  | resumeInstance (instanceId : ℕ) (fadeDuration : Option Tween)
  | stopInstance (instanceId : ℕ) (fadeDuration : Option Tween)
  | startMetronome (id : ℕ)
  | pauseMetronome (id : ℕ)
  | stopMetronome (id : ℕ)
  | startSequence (id : ℕ) (sequence : Sequence)
  deriving DecidableEq, Repr

/-- Events pushed to the controller, modelled from the single constructor
backend.rs builds (`Event::MetronomeIntervalPassed(*id, interval)`). -/
inductive Event where
  | metronomeIntervalPassed (metronomeId : ℕ) (interval : ℚ)
  deriving DecidableEq, Repr

/-- The command a non-waiting step emits, if any. -/
def Step.command : Step → Option Command
  | .playSound sid iid st => some (.playSound sid iid st)
  | .pauseInstance iid f => some (.pauseInstance iid f)
  | .resumeInstance iid f => some (.resumeInstance iid f)
  | .stopInstance iid f => some (.stopInstance iid f)
  | .startMetronome mid => some (.startMetronome mid)
  | .pauseMetronome mid => some (.pauseMetronome mid)
  | .stopMetronome mid => some (.stopMetronome mid)
  | _ => none

/-- Per-tick step budget: the spec (§4.9) requires capping the number of
non-waiting steps executed per tick and suggests 1024. -/
def seqStepBudget : ℕ := 1024

namespace Sequence

/-- Modelled from the spec: §4.9 — run steps until a wait suspends or the
program ends, appending emitted commands in step order.  `dt` is the tick
delta; every `Wait` head reached during this tick is decremented by it. -/
def stepLoop (m : Metronome) (dt : ℚ) :
    ℕ → Sequence → List Command → Sequence × List Command
  | 0, sq, acc => (sq, acc)
  | fuel + 1, sq, acc =>
    match sq.steps.get? sq.cursor with
    | none => ({ sq with state := .finished }, acc)
    | some (.wait d) =>
      let timer := (sq.waitTimer.getD d) - dt
      if timer ≤ 0 then
        stepLoop m dt fuel { sq with cursor := sq.cursor + 1, waitTimer := none } acc
      else ({ sq with waitTimer := some timer }, acc)
    | some (.waitForInterval iv) =>
      if m.crossed iv then stepLoop m dt fuel { sq with cursor := sq.cursor + 1 } acc
      else (sq, acc)
    | some (.goTo k) => stepLoop m dt fuel { sq with cursor := k } acc
    | some .done => ({ sq with state := .finished }, acc)
    | some step =>
      stepLoop m dt fuel { sq with cursor := sq.cursor + 1 }
        (acc ++ step.command.elim [] (fun c => [c]))

/-- Modelled from the spec: §4.9 `update(dt, metronome, out)` runs the step
loop while the sequence is `Running`. -/
def update (sq : Sequence) (dt : ℚ) (m : Metronome) : Sequence × List Command :=
  if sq.state = SequenceState.running then stepLoop m dt seqStepBudget sq [] else (sq, [])

/-- Modelled from the spec: §4.9 `start` — mark running, reset the cursor,
and execute steps until the first suspension. -/
def start (sq : Sequence) (m : Metronome) : Sequence × List Command :=
  stepLoop m 0 seqStepBudget { sq with state := .running, cursor := 0, waitTimer := none } []

/-- `finished() = state == Finished`. -/
def finished (sq : Sequence) : Bool := decide (sq.state = SequenceState.finished)

end Sequence

/-! ## The audio-thread backend (`conductor/src/manager/backend.rs`) -/

/-- `Project` (conductor): the sound and metronome tables.  The conductor
sound type is the predecessor of `kira/src/sound/mod.rs`'s `Sound`
(`get_sample_at_position` there is `get_frame_at_position` here), so the
tables hold `Sound` values from the model above. -/
structure Project where
  sounds : List (ℕ × Sound)
  metronomes : List (ℕ × Metronome)
  deriving DecidableEq, Repr

/-- The audio-thread `Backend` (backend.rs:12-24).  The command ring's
consumer endpoint is modelled by `commandQueue` (its current contents; only
the backend pops it), the event producer by `events` plus its capacity
`eventCap`.  `seqCommandQueue` is `sequence_command_queue`.  The
`sequences_to_remove` / `instances_to_remove` scratch vectors are filled and
fully drained inside a single call each; they are modelled as locals of
those functions (they are empty between calls). -/
structure Backend where
  dt : ℚ
  project : Project
  instances : List (ℕ × Instance)
  sequences : List (ℕ × Sequence)
  commandQueue : List Command
  events : List Event
  eventCap : ℕ
  seqCommandQueue : List Command
  deriving DecidableEq, Repr

/-- Transcription of `Backend::run_command` (backend.rs:48-87).  `none`
models a panic: the `PlaySound` arm, the three metronome arms and the
`StartSequence` arm `.unwrap()` their table lookups, while the three
instance arms are guarded by `if let Some`. -/
def runCommand (b : Backend) (c : Command) : Option Backend :=
  match c with
  | .playSound soundId instanceId settings =>
    match alGet soundId b.project.sounds with
    | none => none
    | some sound =>
      some { b with
        instances := alInsert instanceId (Instance.new soundId settings sound.duration)
          b.instances }
  | .pauseInstance instanceId fadeDuration =>
    match alGet instanceId b.instances with
    | none => some b
    | some _ =>
      some { b with
        instances := alModify instanceId (fun i => i.pause fadeDuration) b.instances }
  | .resumeInstance instanceId fadeDuration =>
    match alGet instanceId b.instances with
    | none => some b
    | some _ =>
      some { b with
        instances := alModify instanceId (fun i => i.resume fadeDuration) b.instances }
  | .stopInstance instanceId fadeDuration =>
    match alGet instanceId b.instances with
    | none => some b
    | some _ =>
      some { b with
        instances := alModify instanceId (fun i => i.stop fadeDuration) b.instances }
  | .startMetronome id =>
    match alGet id b.project.metronomes with
    | none => none
    | some _ =>
      some { b with project :=
        { b.project with metronomes := alModify id Metronome.start b.project.metronomes } }
  | .pauseMetronome id =>
    match alGet id b.project.metronomes with
    | none => none
    | some _ =>
      some { b with
        project := { b.project with
          metronomes := alModify id Metronome.pause b.project.metronomes } }
  | .stopMetronome id =>
    match alGet id b.project.metronomes with
    | none => none
    | some _ =>
      some { b with
        project := { b.project with
          metronomes := alModify id Metronome.stop b.project.metronomes } }
  | .startSequence id sq =>
    match alGet sq.metronomeId b.project.metronomes with
    | none => none
    | some m =>
      let r := sq.start m
      some { b with sequences := alInsert id r.1 b.sequences,
                    seqCommandQueue := b.seqCommandQueue ++ r.2 }

/-- FIFO fold of `run_command` over a list of commands. -/
def runCommands (b : Backend) : List Command → Option Backend
  | [] => some b
  | c :: rest =>
    match runCommand b c with
    | none => none
    | some b' => runCommands b' rest

/-- Transcription of `Backend::process_commands` (backend.rs:89-93):
`while let Some(command) = pop { run_command(command) }`.  Only the backend
pops the command ring and `run_command` never pushes to it, so the loop
executes exactly the ring's current contents in FIFO order. -/
def processCommands (b : Backend) : Option Backend :=
  runCommands { b with commandQueue := [] } b.commandQueue

/-- The loop of `Backend::update_metronomes` (backend.rs:96-107): visit each
metronome in table order, update it, and push one `MetronomeIntervalPassed`
event per interval it reports (the per-metronome drain of the interval
collector is the inner fold). -/
def metroGo (dt : ℚ) (cap : ℕ) :
    List (ℕ × Metronome) → List (ℕ × Metronome) → List Event →
    List (ℕ × Metronome) × List Event
  | [], done, evs => (done, evs)
  | (id, m) :: rest, done, evs =>
    let u := m.update dt
    metroGo dt cap rest (done ++ [(id, u.1)])
      (u.2.foldl (fun es iv => ringPush cap (Event.metronomeIntervalPassed id iv) es) evs)

/-- Transcription of `Backend::update_metronomes` (backend.rs:95-108): for
each metronome in table order, update it, then push one event per reported
interval — `Ok(_) => {}` and `Err(_) => {}` alike, so a full event ring
silently drops the event. -/
def updateMetronomes (b : Backend) : Backend :=
  let r := metroGo b.dt b.eventCap b.project.metronomes [] b.events
  { b with project := { b.project with metronomes := r.1 }, events := r.2 }

/-- The first loop of `update_sequences` (backend.rs:111-117): update every
sequence in table order against its metronome (looked up with `.unwrap()`),
appending emitted commands to the sequence command queue and collecting the
ids of finished sequences. -/
def seqAdvanceGo (b : Backend) :
    List (ℕ × Sequence) → List (ℕ × Sequence) → List Command → List ℕ →
    Option (List (ℕ × Sequence) × List Command × List ℕ)
  | [], done, q, rem => some (done, q, rem)
  | (id, sq) :: rest, done, q, rem =>
    match alGet sq.metronomeId b.project.metronomes with
    | none => none
    | some m =>
      let u := sq.update b.dt m
      seqAdvanceGo b rest (done ++ [(id, u.1)]) (q ++ u.2)
        (if u.1.finished then rem ++ [id] else rem)

/-- The indexed drain of `update_sequences` (backend.rs:121-124):
`for i in 0..len` with `len` captured once before the loop; the counter
argument is `len - i`, so the loop runs the commands at indices
`i, i+1, …, len-1` of the live queue — `run_command` may append more
commands (via `StartSequence`), and those are not visited.  The
`.get(i).unwrap()` is `none` on an out-of-range index. -/
def drainCount : ℕ → ℕ → Backend → Option Backend
  | 0, _, b => some b
  | k + 1, i, b =>
    match b.seqCommandQueue.get? i with
    | none => none
    | some c =>
      match runCommand b c with
      | none => none
      | some b' => drainCount k (i + 1) b'

/-- Transcription of `Backend::update_sequences` (backend.rs:110-126):
advance all sequences, swap-remove the finished ones, execute the first
`len` queued commands in order, then clear the queue. -/
def updateSequences (b : Backend) : Option Backend :=
  match seqAdvanceGo b b.sequences [] b.seqCommandQueue [] with
  | none => none
  | some (seqs, q, rem) =>
    let b1 := { b with sequences := rem.foldl (fun l id => alSwapRemove id l) seqs,
                       seqCommandQueue := q }
    match drainCount q.length 0 b1 with
    | none => none
    | some b2 => some { b2 with seqCommandQueue := [] }

/-- The mix loop of `Backend::process` (backend.rs:132-143): accumulate the
output frame over instances in table order (the sound lookup for a playing
instance `.unwrap()`s), collect the ids of instances that are finished
before their update, and advance every instance by `dt`. -/
def mixGo (b : Backend) :
    List (ℕ × Instance) → List (ℕ × Instance) → Frame → List ℕ →
    Option (List (ℕ × Instance) × Frame × List ℕ)
  | [], done, out, rem => some (done, out, rem)
  | (id, inst) :: rest, done, out, rem =>
    let out' : Option Frame :=
      if inst.playing then
        match alGet inst.soundId b.project.sounds with
        | none => none
        | some sound =>
          some (out + sound.getFrameAtPosition inst.position * inst.effectiveVolume)
      else some out
    match out' with
    | none => none
    | some o =>
      mixGo b rest (done ++ [(id, inst.update b.dt)]) o
        (if inst.finished then rem ++ [id] else rem)

/-- The mix-and-reclaim tail of `Backend::process` (backend.rs:132-147):
run the mix loop from the zero frame, then swap-remove the collected
instances. -/
def mixPhase (b : Backend) : Option (Backend × Frame) :=
  match mixGo b b.instances [] (Frame.fromMono 0) [] with
  | none => none
  | some (insts, out, rem) =>
    some ({ b with instances := rem.foldl (fun l id => alSwapRemove id l) insts }, out)

/-- Transcription of `Backend::process` (backend.rs:128-148): drain the
command ring, advance metronomes, advance sequences (running their emitted
commands), then mix. -/
def process (b : Backend) : Option (Backend × Frame) :=
  match processCommands b with
  | none => none
  | some b1 =>
    let b2 := updateMetronomes b1
    match updateSequences b2 with
    | none => none
    | some b3 => mixPhase b3

/-- A concrete backend with empty tables and a zero-capacity event ring,
used to instantiate the backend theorems. -/
def emptyBackend : Backend :=
  { dt := 1, project := { sounds := [], metronomes := [] }, instances := [],
    sequences := [], commandQueue := [], events := [], eventCap := 0,
    seqCommandQueue := [] }

/-- C1 counterexample: the claim says `PlaySound` with an unknown `SoundId`
is a silent no-op; on a backend with an empty sound table (so the id `0` is
unknown) `run_command` hits the `.unwrap()` on the sound lookup and panics —
modelled as `none`, which in particular is not the claimed unchanged-state
result `some emptyBackend`. -/
theorem C1_counterexample_play_unknown_sound :
    alGet 0 emptyBackend.project.sounds = none ∧
    runCommand emptyBackend (Command.playSound 0 0 InstanceSettings.default) = none ∧
    runCommand emptyBackend (Command.playSound 0 0 InstanceSettings.default) ≠
      some emptyBackend := by
  refine ⟨rfl, rfl, ?_⟩
  intro h
  rw [show runCommand emptyBackend (Command.playSound 0 0 InstanceSettings.default) = none
    from rfl] at h
  exact Option.noConfusion h

/-- C1: corrected.  `run_command` on a `PlaySound` whose `SoundId` is not in
the sound table is *not* a silent no-op: `backend.rs:51` unwraps the lookup
(`self.project.sounds.get(&sound_id).unwrap()`), so the audio thread panics
(modelled: `runCommand` returns `none`); the panic precedes any state
mutation. -/
theorem C1_play_unknown_sound_panics (b : Backend) (sid iid : ℕ)
    (settings : InstanceSettings) (h : alGet sid b.project.sounds = none) :
    runCommand b (Command.playSound sid iid settings) = none := by
  simp only [runCommand, h]

/-- Witness for `C1_play_unknown_sound_panics` on the empty backend. -/
theorem C1_witness :
    runCommand emptyBackend (Command.playSound 0 0 InstanceSettings.default) = none :=
  C1_play_unknown_sound_panics emptyBackend 0 0 InstanceSettings.default rfl

/-- C7: confirmed.  `PauseInstance`, `ResumeInstance` and `StopInstance`
with an `InstanceId` that is not in the instance table are guarded by
`if let Some(instance) = self.instances.get_mut(&instance_id)`
(backend.rs:57-71): `run_command` returns with the backend completely
unchanged, without panicking and without reporting anything. -/
theorem C7_instance_commands_unknown_id_noop (b : Backend) (iid : ℕ)
    (fadeDuration : Option Tween) (h : alGet iid b.instances = none) :
    runCommand b (Command.pauseInstance iid fadeDuration) = some b ∧
    runCommand b (Command.resumeInstance iid fadeDuration) = some b ∧
    runCommand b (Command.stopInstance iid fadeDuration) = some b := by
  refine ⟨?_, ?_, ?_⟩ <;> simp only [runCommand, h]

/-- Witness for `C7_instance_commands_unknown_id_noop` on the empty
backend. -/
theorem C7_witness :
    runCommand emptyBackend (Command.pauseInstance 5 none) = some emptyBackend ∧
    runCommand emptyBackend (Command.resumeInstance 5 none) = some emptyBackend ∧
    runCommand emptyBackend (Command.stopInstance 5 none) = some emptyBackend :=
  C7_instance_commands_unknown_id_noop emptyBackend 5 none rfl

theorem metroGo_spec (dt : ℚ) (cap : ℕ) (ms : List (ℕ × Metronome)) :
    ∀ (done : List (ℕ × Metronome)) (evs : List Event),
      metroGo dt cap ms done evs =
        (done ++ ms.map (fun p => (p.1, (p.2.update dt).1)),
         ms.foldl (fun es p =>
           ((p.2.update dt).2).foldl
             (fun es2 iv => ringPush cap (Event.metronomeIntervalPassed p.1 iv) es2) es) evs) := by
  induction ms with
  | nil => intro done evs; simp [metroGo]
  | cons hd tl ih =>
    intro done evs
    obtain ⟨id, m⟩ := hd
    rw [metroGo, ih]
    simp [List.append_assoc]

theorem ringPush_full {α : Type} {cap : ℕ} {q : List α} (e : α) (h : cap ≤ q.length) :
    ringPush cap e q = q := if_pos h

theorem foldl_ringPush_full {α β : Type} {cap : ℕ} (f : β → α) :
    ∀ (l : List β) (q : List α), cap ≤ q.length →
      l.foldl (fun es iv => ringPush cap (f iv) es) q = q := by
  intro l
  induction l with
  | nil => intro q _; rfl
  | cons hd tl ih =>
    intro q h
    rw [List.foldl_cons, ringPush_full _ h]
    exact ih q h

theorem metroEvents_full {cap : ℕ} (dt : ℚ) :
    ∀ (ms : List (ℕ × Metronome)) (q : List Event), cap ≤ q.length →
      ms.foldl (fun es p => ((p.2.update dt).2).foldl
        (fun es2 iv => ringPush cap (Event.metronomeIntervalPassed p.1 iv) es2) es) q = q := by
  intro ms
  induction ms with
  | nil => intro q _; rfl
  | cons hd tl ih =>
    intro q h
    rw [List.foldl_cons, foldl_ringPush_full _ _ q h]
    exact ih q h

/-- C5: confirmed.  First conjunct: in every call to `update_metronomes`,
the metronome table advances to exactly the pure per-metronome update —
independently of the event ring — so a metronome's state advances exactly
as it would when the push succeeds.  Second conjunct: when the event ring is
full, the whole call changes nothing but the metronome table: every event
push is silently dropped (`Err(_) => {}`), the ring contents are unchanged,
and no error is reported anywhere. -/
theorem C5_full_event_ring_drops_silently (b : Backend) :
    (updateMetronomes b).project.metronomes =
      b.project.metronomes.map (fun p => (p.1, (p.2.update b.dt).1)) ∧
    (b.eventCap ≤ b.events.length →
      updateMetronomes b = { b with project := { b.project with
        metronomes := b.project.metronomes.map (fun p => (p.1, (p.2.update b.dt).1)) } }) := by
  constructor
  · unfold updateMetronomes
    rw [metroGo_spec]
    simp
  · intro h
    unfold updateMetronomes
    rw [metroGo_spec]
    rw [metroEvents_full b.dt b.project.metronomes b.events h]
    simp

/-- A backend with one ticking metronome and a zero-capacity (hence full)
event ring. -/
def tickingBackend : Backend :=
  { dt := 1, project := { sounds := [], metronomes := [(0, Metronome.mk 120 [1] true 0 0)] },
    instances := [], sequences := [], commandQueue := [], events := [], eventCap := 0,
    seqCommandQueue := [] }

/-- Witness for `C5_full_event_ring_drops_silently` on a concrete full-ring
backend with one ticking metronome. -/
theorem C5_witness :
    updateMetronomes tickingBackend = { tickingBackend with
      project := { tickingBackend.project with
        metronomes := tickingBackend.project.metronomes.map
          (fun p => (p.1, (p.2.update tickingBackend.dt).1)) } } :=
  (C5_full_event_ring_drops_silently tickingBackend).2 (by decide)

/-! ## Claim C3: order of work within one `process()` call -/

/-- The metronome phase as the claim words it: *every* metronome advances
(a pure per-metronome map), and the reported intervals are pushed into the
event ring in order.  This definition follows the spec's words. -/
def metronomePhaseFromSpec (b : Backend) : Backend :=
  { b with
    project := { b.project with
      metronomes := b.project.metronomes.map (fun p => (p.1, (p.2.update b.dt).1)) },
    events := b.project.metronomes.foldl
      (fun es p => ((p.2.update b.dt).2).foldl
        (fun es2 iv => ringPush b.eventCap (Event.metronomeIntervalPassed p.1 iv) es2) es)
      b.events }

/-- The sequence phase as the claim words it: every sequence advances with
the commands it emits queued into the internal buffer; finished sequences
are removed; then the queued commands are executed *as a list, in emission
order* (a plain FIFO fold, rather than the source's indexed loop over the
live queue); finally the buffer is cleared.  This definition follows the
spec's words. -/
def sequencePhaseFromSpec (b : Backend) : Option Backend :=
  match seqAdvanceGo b b.sequences [] b.seqCommandQueue [] with
  | none => none
  | some r =>
    match runCommands { b with sequences := r.2.2.foldl (fun l id => alSwapRemove id l) r.1,
                               seqCommandQueue := r.2.1 } r.2.1 with
    | none => none
    | some b2 => some { b2 with seqCommandQueue := [] }

/-- One `process()` call as the claim words it: ring commands in FIFO order,
then every metronome advances, then sequences advance and their emitted
commands run in emission order, and only then the mix.  This definition
follows the spec's words; claim C3 compares it with the transcription
`process`. -/
def processFromSpec (b : Backend) : Option (Backend × Frame) :=
  match processCommands b with
  | none => none
  | some b1 =>
    match sequencePhaseFromSpec (metronomePhaseFromSpec b1) with
    | none => none
    | some b3 => mixPhase b3

theorem updateMetronomes_eq_spec (b : Backend) :
    updateMetronomes b = metronomePhaseFromSpec b := by
  unfold updateMetronomes metronomePhaseFromSpec
  rw [metroGo_spec]
  simp

/-- `run_command` only ever appends to the sequence command queue (the
`StartSequence` arm), and never removes from it. -/
theorem runCommand_queue_extend (b : Backend) (c : Command) (b' : Backend)
    (h : runCommand b c = some b') :
    ∃ ext, b'.seqCommandQueue = b.seqCommandQueue ++ ext := by
  cases c <;>
    (simp only [runCommand] at h
     split at h <;>
       first
         | exact Option.noConfusion h
         | (injection h with h'
            subst h'
            exact ⟨[], (List.append_nil _).symm⟩)
         | (injection h with h'
            subst h'
            exact ⟨_, rfl⟩))

/-- The indexed drain over the live (append-only) queue visits exactly the
captured segment, so it coincides with the FIFO fold over that segment. -/
theorem drainCount_eq_runCommands :
    ∀ (k i : ℕ) (b : Backend), i + k ≤ b.seqCommandQueue.length →
      drainCount k i b = runCommands b ((b.seqCommandQueue.drop i).take k) := by
  intro k
  induction k with
  | zero =>
    intro i b _
    simp [drainCount, runCommands]
  | succ k ih =>
    intro i b h
    have hi : i < b.seqCommandQueue.length := by omega
    have hget : b.seqCommandQueue.get? i = some (b.seqCommandQueue[i]) := by
      rw [List.get?_eq_getElem?, List.getElem?_eq_getElem hi]
    have hstep : drainCount (k + 1) i b =
        (match runCommand b (b.seqCommandQueue[i]) with
         | none => none
         | some b' => drainCount k (i + 1) b') := by
      rw [drainCount, hget]
    have hlist : (b.seqCommandQueue.drop i).take (k + 1) =
        b.seqCommandQueue[i] :: (b.seqCommandQueue.drop (i + 1)).take k := by
      rw [List.drop_eq_getElem_cons hi, List.take_succ_cons]
    rw [hstep, hlist, runCommands]
    cases hr : runCommand b (b.seqCommandQueue[i]) with
    | none => rfl
    | some b' =>
      obtain ⟨ext, hext⟩ := runCommand_queue_extend b _ b' hr
      have hlen : i + 1 + k ≤ b'.seqCommandQueue.length := by
        rw [hext, List.length_append]
        omega
      show drainCount k (i + 1) b' =
        runCommands b' ((b.seqCommandQueue.drop (i + 1)).take k)
      rw [ih (i + 1) b' hlen]
      congr 1
      rw [hext, List.drop_append_of_le_length (by omega),
        List.take_append_of_le_length (by simp [List.length_drop]; omega)]

theorem updateSequences_eq_spec (b : Backend) :
    updateSequences b = sequencePhaseFromSpec b := by
  unfold updateSequences sequencePhaseFromSpec
  cases hs : seqAdvanceGo b b.sequences [] b.seqCommandQueue [] with
  | none => rfl
  | some r =>
    obtain ⟨seqs, q, rem⟩ := r
    show (match drainCount q.length 0
        { b with sequences := rem.foldl (fun l id => alSwapRemove id l) seqs,
                 seqCommandQueue := q } with
      | none => none
      | some b2 => some { b2 with seqCommandQueue := [] }) =
      (match runCommands { b with sequences := rem.foldl (fun l id => alSwapRemove id l) seqs,
                                  seqCommandQueue := q } q with
      | none => none
      | some b2 => some { b2 with seqCommandQueue := [] })
    rw [drainCount_eq_runCommands q.length 0 _ (by simp)]
    simp

/-- C3: confirmed.  The transcription of `Backend::process` equals the
staged description of the claim: all ring commands execute first in FIFO
order, then every metronome advances (pushing its events), then every
sequence advances with its emitted commands executed — as the captured list,
in emission order — and only then does mixing run.  The interesting step is
that the source's indexed drain (`for i in 0..len`, over a queue that
`run_command` may grow) visits exactly the emission-ordered captured
segment. -/
theorem C3_process_phase_order (b : Backend) : process b = processFromSpec b := by
  unfold process processFromSpec
  cases hp : processCommands b with
  | none => rfl
  | some b1 =>
    show (match updateSequences (updateMetronomes b1) with
      | none => none
      | some b3 => mixPhase b3) =
      (match sequencePhaseFromSpec (metronomePhaseFromSpec b1) with
      | none => none
      | some b3 => mixPhase b3)
    rw [updateMetronomes_eq_spec, updateSequences_eq_spec]

/-! ## Claim C4: association-map lemmas -/

theorem alGet_cons {α : Type} (k k₁ : ℕ) (v : α) (tl : List (ℕ × α)) :
    alGet k ((k₁, v) :: tl) = if k₁ = k then some v else alGet k tl := by
  by_cases h : k₁ = k
  · simp [alGet, h]
  · simp [alGet, h]

theorem alGet_eq_none_iff {α : Type} (k : ℕ) (l : List (ℕ × α)) :
    alGet k l = none ↔ k ∉ l.map Prod.fst := by
  induction l with
  | nil => simp [alGet]
  | cons hd tl ih =>
    obtain ⟨k₁, v₁⟩ := hd
    rw [alGet_cons]
    by_cases h : k₁ = k
    · subst h
      simp
    · simp [h, ih, Ne.symm h]

theorem alGet_eq_some_iff_mem {α : Type} {k : ℕ} {v : α} {l : List (ℕ × α)}
    (hnd : NodupKeys l) : alGet k l = some v ↔ (k, v) ∈ l := by
  induction l with
  | nil => simp [alGet]
  | cons hd tl ih =>
    obtain ⟨k₁, v₁⟩ := hd
    have hnd2 : (k₁ :: tl.map Prod.fst).Nodup := by simpa [NodupKeys] using hnd
    have hk₁ : k₁ ∉ tl.map Prod.fst := (List.nodup_cons.mp hnd2).1
    have hnd' : NodupKeys tl := (List.nodup_cons.mp hnd2).2
    rw [alGet_cons]
    by_cases h : k₁ = k
    · subst h
      rw [if_pos rfl]
      constructor
      · intro hsome
        injection hsome with hv
        subst hv
        exact List.mem_cons_self _ _
      · intro hmem
        rcases List.mem_cons.mp hmem with heq | hmem'
        · injection heq with h1 h2
          subst h2
          rfl
        · exact absurd (List.mem_map_of_mem Prod.fst hmem') hk₁
    · rw [if_neg h, ih hnd']
      simp only [List.mem_cons, Prod.mk.injEq]
      constructor
      · intro hm
        exact Or.inr hm
      · rintro (⟨hk, -⟩ | hm)
        · exact absurd hk.symm h
        · exact hm

theorem alGet_map_value {α : Type} (k : ℕ) (f : α → α) (l : List (ℕ × α)) :
    alGet k (l.map (fun p => (p.1, f p.2))) = (alGet k l).map f := by
  induction l with
  | nil => rfl
  | cons hd tl ih =>
    obtain ⟨k₁, v₁⟩ := hd
    simp only [List.map_cons]
    rw [alGet_cons, alGet_cons]
    by_cases h : k₁ = k
    · simp [h]
    · simp [h, ih]

theorem keys_map_value {α : Type} (f : α → α) (l : List (ℕ × α)) :
    (l.map (fun p => (p.1, f p.2))).map Prod.fst = l.map Prod.fst := by
  induction l with
  | nil => rfl
  | cons hd tl ih => simp [ih]

theorem list_set_getElem_self {α : Type} (l : List α) (i : ℕ) (h : i < l.length) :
    l.set i l[i] = l := by
  apply List.ext_getElem (by simp)
  intro j h1 h2
  rw [List.getElem_set]
  split
  · next heq =>
    subst heq
    rfl
  · rfl

theorem swapRemove_of_findIdx_none {α : Type} {k : ℕ} {l : List (ℕ × α)}
    (h : l.findIdx? (fun p => p.1 == k) = none) : alSwapRemove k l = l := by
  unfold alSwapRemove
  rw [h]

theorem alGet_eq_none_of_findIdx_none {α : Type} {k : ℕ} {l : List (ℕ × α)}
    (h : l.findIdx? (fun p => p.1 == k) = none) : alGet k l = none := by
  rw [alGet_eq_none_iff]
  rw [List.findIdx?_eq_none_iff] at h
  intro hmem
  obtain ⟨p, hp, hfst⟩ := List.mem_map.mp hmem
  have hfalse := h p hp
  rw [hfst] at hfalse
  simp at hfalse

theorem swapRemove_perm {α : Type} {k : ℕ} {l : List (ℕ × α)} {i : ℕ}
    (h : l.findIdx? (fun p => p.1 == k) = some i) :
    List.Perm (alSwapRemove k l) (l.eraseIdx i) := by
  obtain ⟨hi, -, -⟩ := List.findIdx?_eq_some_iff_getElem.mp h
  have hne : l ≠ [] := by
    intro heq
    subst heq
    simp at hi
  unfold alSwapRemove
  rw [h, List.getLast?_eq_getLast_of_ne_nil hne]
  show List.Perm ((l.set i (l.getLast hne)).dropLast) (l.eraseIdx i)
  rcases Nat.lt_or_ge i (l.length - 1) with hilt | hige
  · have hAlen : i < l.dropLast.length := by
      rw [List.length_dropLast]
      exact hilt
    obtain ⟨a, ha⟩ : ∃ a, l.getLast hne = a := ⟨_, rfl⟩
    rw [ha]
    have hlast : l.dropLast ++ [a] = l := by
      rw [← ha]
      exact List.dropLast_append_getLast hne
    conv_lhs => rw [← hlast]
    rw [List.set_append_left _ _ hAlen, List.dropLast_concat]
    conv_rhs => rw [← hlast]
    rw [List.eraseIdx_append_of_lt_length hAlen, List.set_eq_take_append_cons_drop,
      if_pos hAlen, List.eraseIdx_eq_take_drop_succ, List.append_assoc]
    exact List.Perm.append_left _ (List.perm_append_singleton _ _).symm
  · have hieq : i = l.length - 1 := by omega
    subst hieq
    rw [List.getLast_eq_getElem _ hne, list_set_getElem_self l _ hi,
      List.dropLast_eq_take, List.eraseIdx_eq_take_drop_succ,
      List.drop_eq_nil_of_le (by omega), List.append_nil]

theorem nodupKeys_swapRemove {α : Type} (k : ℕ) {l : List (ℕ × α)}
    (hnd : NodupKeys l) : NodupKeys (alSwapRemove k l) := by
  cases hf : l.findIdx? (fun p => p.1 == k) with
  | none =>
    rw [swapRemove_of_findIdx_none hf]
    exact hnd
  | some i =>
    have hperm := swapRemove_perm hf
    have hsub := List.Sublist.map Prod.fst (List.eraseIdx_sublist l i)
    unfold NodupKeys
    rw [List.Perm.nodup_iff (List.Perm.map Prod.fst hperm)]
    exact List.Nodup.sublist hsub hnd

theorem alGet_swapRemove {α : Type} (k k' : ℕ) {l : List (ℕ × α)} (hnd : NodupKeys l) :
    alGet k' (alSwapRemove k l) = if k' = k then none else alGet k' l := by
  cases hf : l.findIdx? (fun p => p.1 == k) with
  | none =>
    rw [swapRemove_of_findIdx_none hf]
    by_cases h : k' = k
    · subst h
      rw [if_pos rfl]
      exact alGet_eq_none_of_findIdx_none hf
    · rw [if_neg h]
  | some i =>
    have hperm := swapRemove_perm hf
    obtain ⟨hi, hp, -⟩ := List.findIdx?_eq_some_iff_getElem.mp hf
    have hkey : l[i].1 = k := by simpa using hp
    have hnd' : NodupKeys (alSwapRemove k l) := nodupKeys_swapRemove k hnd
    have hdec : l = l.take i ++ l[i] :: l.drop (i + 1) := by
      conv_lhs => rw [← List.take_append_drop i l]
      rw [List.drop_eq_getElem_cons hi]
    have herase : l.eraseIdx i = l.take i ++ l.drop (i + 1) :=
      List.eraseIdx_eq_take_drop_succ l i
    have hnotk : k ∉ (l.take i).map Prod.fst ∧ k ∉ (l.drop (i + 1)).map Prod.fst := by
      have h2 : NodupKeys (l.take i ++ l[i] :: l.drop (i + 1)) := by
        rw [← hdec]
        exact hnd
      unfold NodupKeys at h2
      rw [List.map_append, List.map_cons, hkey, List.nodup_append] at h2
      obtain ⟨-, hcons, hdisj⟩ := h2
      exact ⟨fun hmem => hdisj hmem (List.mem_cons_self _ _), (List.nodup_cons.mp hcons).1⟩
    by_cases h : k' = k
    · subst h
      rw [if_pos rfl, alGet_eq_none_iff]
      intro hmem
      have hmem2 : k' ∈ (l.eraseIdx i).map Prod.fst :=
        (List.Perm.mem_iff (List.Perm.map Prod.fst hperm)).mp hmem
      rw [herase, List.map_append, List.mem_append] at hmem2
      rcases hmem2 with hm | hm
      · exact hnotk.1 hm
      · exact hnotk.2 hm
    · rw [if_neg h]
      cases hg : alGet k' l with
      | none =>
        rw [alGet_eq_none_iff] at hg ⊢
        intro hmem
        apply hg
        have hmem2 : k' ∈ (l.eraseIdx i).map Prod.fst :=
          (List.Perm.mem_iff (List.Perm.map Prod.fst hperm)).mp hmem
        exact (List.Sublist.map Prod.fst (List.eraseIdx_sublist l i)).subset hmem2
      | some v =>
        have hmeml : (k', v) ∈ l := (alGet_eq_some_iff_mem hnd).mp hg
        have hmem2 : (k', v) ∈ l.eraseIdx i := by
          rw [herase, List.mem_append]
          rw [hdec, List.mem_append, List.mem_cons] at hmeml
          rcases hmeml with hm | hm | hm
          · exact Or.inl hm
          · exact absurd ((congrArg Prod.fst hm).trans hkey) h
          · exact Or.inr hm
        exact (alGet_eq_some_iff_mem hnd').mpr ((List.Perm.mem_iff hperm).mpr hmem2)

theorem alGet_foldl_swapRemove {α : Type} (rem : List ℕ) :
    ∀ (l : List (ℕ × α)), NodupKeys l → ∀ k,
      alGet k (rem.foldl (fun acc id => alSwapRemove id acc) l) =
        if k ∈ rem then none else alGet k l := by
  induction rem with
  | nil =>
    intro l _ k
    simp
  | cons r rest ih =>
    intro l hnd k
    rw [List.foldl_cons, ih _ (nodupKeys_swapRemove r hnd) k]
    by_cases hk : k ∈ rest
    · simp [hk]
    · rw [if_neg hk, alGet_swapRemove r k hnd]
      by_cases hkr : k = r
      · simp [hkr]
      · simp [hkr, hk]

/-! ## Claim C4: the mix loop -/

/-- The claim's per-instance mix term:
`sound.get_frame_at_position(instance.position) * instance.effective_volume()`
for the instance's sound (the zero frame stands in when the sound is absent,
a case the mix loop's own `.unwrap()` excludes whenever it returns). -/
def mixContribution (b : Backend) (inst : Instance) : Frame :=
  (alGet inst.soundId b.project.sounds).elim (Frame.fromMono 0)
    (fun s => s.getFrameAtPosition inst.position * inst.effectiveVolume)

theorem mixGo_spec (b : Backend) :
    ∀ (insts done : List (ℕ × Instance)) (out : Frame) (rem : List ℕ)
      (res : List (ℕ × Instance) × Frame × List ℕ),
      mixGo b insts done out rem = some res →
      res.1 = done ++ insts.map (fun p => (p.1, p.2.update b.dt)) ∧
      res.2.1 = (insts.filter (fun p => p.2.playing)).foldl
        (fun acc p => acc + mixContribution b p.2) out ∧
      res.2.2 = rem ++ (insts.filter (fun p => p.2.finished)).map Prod.fst := by
  intro insts
  induction insts with
  | nil =>
    intro done out rem res h
    injection h with h'
    subst h'
    simp
  | cons hd tl ih =>
    intro done out rem res h
    obtain ⟨id, inst⟩ := hd
    rw [mixGo] at h
    by_cases hpl : inst.playing = true
    · rw [if_pos hpl] at h
      cases hg : alGet inst.soundId b.project.sounds with
      | none =>
        rw [hg] at h
        exact Option.noConfusion h
      | some s =>
        rw [hg] at h
        obtain ⟨h1, h2, h3⟩ := ih _ _ _ _ h
        refine ⟨?_, ?_, ?_⟩
        · rw [h1]
          simp
        · rw [h2, List.filter_cons_of_pos (by simpa using hpl), List.foldl_cons]
          simp [mixContribution, hg]
        · rw [h3]
          by_cases hfin : inst.finished = true
          · rw [if_pos hfin, List.filter_cons_of_pos (by simpa using hfin)]
            simp
          · rw [if_neg hfin, List.filter_cons_of_neg (by simpa using hfin)]
    · rw [if_neg hpl] at h
      obtain ⟨h1, h2, h3⟩ := ih _ _ _ _ h
      refine ⟨?_, ?_, ?_⟩
      · rw [h1]
        simp
      · rw [h2, List.filter_cons_of_neg (by simpa using hpl)]
      · rw [h3]
        by_cases hfin : inst.finished = true
        · rw [if_pos hfin, List.filter_cons_of_pos (by simpa using hfin)]
          simp
        · rw [if_neg hfin, List.filter_cons_of_neg (by simpa using hfin)]

/-- C4: confirmed.  A `process()` call whose command phases produce state
`b3` returns the frame sum, started from the zero frame, over the playing
instances of `b3` in table order, of the instance's sound's frame at its
position times its effective volume; and the instance table it leaves
behind contains exactly the non-finished instances (each advanced by `dt`)
— every instance that reported `finished()` during the mix loop is removed
and no other id is removed or lost.  The key-uniqueness hypothesis is the
`IndexMap` invariant. -/
theorem C4_process_mix_and_reclaim (b b1 b3 b' : Backend) (out : Frame)
    (hp : process b = some (b', out))
    (hpc : processCommands b = some b1)
    (h3 : updateSequences (updateMetronomes b1) = some b3)
    (hnd : NodupKeys b3.instances) :
    out = (b3.instances.filter (fun p => p.2.playing)).foldl
        (fun acc p => acc + mixContribution b3 p.2) (Frame.fromMono 0) ∧
    (∀ id inst, alGet id b3.instances = some inst →
      alGet id b'.instances =
        if inst.finished then none else some (inst.update b3.dt)) ∧
    (∀ id, alGet id b3.instances = none → alGet id b'.instances = none) := by
  rw [process, hpc] at hp
  have hp' : (match updateSequences (updateMetronomes b1) with
      | none => none
      | some b3 => mixPhase b3) = some (b', out) := hp
  rw [h3] at hp'
  have hmix : mixPhase b3 = some (b', out) := hp'
  rw [mixPhase] at hmix
  cases hm : mixGo b3 b3.instances [] (Frame.fromMono 0) [] with
  | none =>
    rw [hm] at hmix
    exact Option.noConfusion hmix
  | some res =>
    rw [hm] at hmix
    obtain ⟨insts, o, rem⟩ := res
    obtain ⟨h1, h2, h3'⟩ := mixGo_spec b3 b3.instances [] (Frame.fromMono 0) [] _ hm
    simp only [List.nil_append] at h1 h2 h3'
    injection hmix with hmix'
    have hb' : b' = { b3 with instances := rem.foldl (fun l id => alSwapRemove id l) insts } := by
      have := congrArg Prod.fst hmix'
      simp at this
      exact this.symm
    have hout : out = o := by
      have := congrArg Prod.snd hmix'
      simp at this
      exact this.symm
    have hndinsts : NodupKeys insts := by
      unfold NodupKeys
      rw [h1]
      have hkeys : (b3.instances.map (fun p => (p.1, p.2.update b3.dt))).map Prod.fst =
          b3.instances.map Prod.fst :=
        keys_map_value (fun i => i.update b3.dt) b3.instances
      rw [hkeys]
      exact hnd
    have hlookup : ∀ k, alGet k b'.instances =
        if k ∈ rem then none else (alGet k b3.instances).map (fun i => i.update b3.dt) := by
      intro k
      have hmapget : alGet k (b3.instances.map (fun p => (p.1, p.2.update b3.dt))) =
          (alGet k b3.instances).map (fun i => i.update b3.dt) :=
        alGet_map_value k (fun i => i.update b3.dt) b3.instances
      rw [hb']
      show alGet k (rem.foldl (fun l id => alSwapRemove id l) insts) = _
      rw [alGet_foldl_swapRemove rem insts hndinsts k, h1, hmapget]
    refine ⟨hout.trans h2, ?_, ?_⟩
    · intro id inst hid
      rw [hlookup id, hid]
      by_cases hfin : inst.finished = true
      · have hmem : id ∈ rem := by
          rw [h3']
          exact List.mem_map.mpr ⟨(id, inst),
            List.mem_filter.mpr ⟨(alGet_eq_some_iff_mem hnd).mp hid, hfin⟩, rfl⟩
        rw [if_pos hmem, if_pos hfin]
      · have hmem : id ∉ rem := by
          intro hmem
          rw [h3'] at hmem
          obtain ⟨⟨pk, pv⟩, hpmem, hpfst⟩ := List.mem_map.mp hmem
          obtain ⟨hpin, hpfin⟩ := List.mem_filter.mp hpmem
          have hpk : pk = id := hpfst
          subst hpk
          have hsome : alGet pk b3.instances = some pv :=
            (alGet_eq_some_iff_mem hnd).mpr hpin
          rw [hid] at hsome
          injection hsome with hinst
          apply hfin
          rw [hinst]
          exact hpfin
        rw [if_neg hmem, if_neg hfin]
        rfl
    · intro id hid
      rw [hlookup id, hid]
      by_cases hmem : id ∈ rem
      · rw [if_pos hmem]
      · rw [if_neg hmem]
        rfl

/-- Witness for `C4_process_mix_and_reclaim` on the empty backend (whose
`process` call returns the zero frame and removes nothing). -/
theorem C4_witness :
    Frame.fromMono 0 =
      (emptyBackend.instances.filter (fun p => p.2.playing)).foldl
        (fun acc p => acc + mixContribution emptyBackend p.2) (Frame.fromMono 0) :=
  (C4_process_mix_and_reclaim emptyBackend emptyBackend emptyBackend emptyBackend
    (Frame.fromMono 0) rfl rfl rfl (by simp [NodupKeys, emptyBackend])).1

end Kira
